import Mathlib

/-!
A shallow embedding of memoryhttpd (src/main.rs): an in-memory HTTP key-value
cache with TTL expiration.  The Store is the `HashMap<String, Vec<u8>>` behind
the `RwLock`; the Router is `handler`/`get`/`set`/`delete`; the Scheduler is
the `expiring` task with its `BinaryHeap<Expiration>` and mpsc channel.

Modelling decisions:
- byte sequences (`Vec<u8>`) are `List Nat`;
- monotonic time (`Instant`) is a `Nat` count of milliseconds, so
  `Instant::now() + Duration::from_millis(e)` is `now + e`;
- the `HashMap` is a function `String → Option (List Nat)`;
- the mpsc channel is a list of in-flight messages plus a closed flag; whether
  a `send` succeeds is an environment parameter `sendOk` (it fails only when
  the receiver is gone);
- the `BinaryHeap` is the multiset of its elements as a list; `heapPeek`
  returns its greatest element under the `Ord for Expiration` instance,
  exactly what `BinaryHeap::peek`/`pop` return.
-/

namespace Memoryhttpd

/-- `Vec<u8>` as a list of byte values. -/
abbrev Bytes := List Nat

/-- The `HashMap<String, Vec<u8>>` behind the `RwLock`. -/
def Store := String → Option Bytes

/-- `HashMap::insert` (main.rs line 67). -/
def storeInsert (st : Store) (k : String) (v : Bytes) : Store :=
  fun k2 => if k2 = k then some v else st k2

/-- `HashMap::remove` (main.rs lines 92 and 190). -/
def storeErase (st : Store) (k : String) : Store :=
  fun k2 => if k2 = k then none else st k2

/-- `Default::default()` for the map: empty. -/
def emptyStore : Store := fun _ => none

/-- `struct Expiration { key: String, deadline: Instant }` (main.rs 32-36). -/
structure Expiration where
  key : String
  deadline : Nat
deriving DecidableEq

/-- Rust `Ord::cmp` on `u64`/`Instant`: a total order by `<`. -/
def natCmp (a b : Nat) : Ordering :=
  if a < b then .lt else if a = b then .eq else .gt

/-- Rust `Ordering::then_with` / `Ordering::then`. -/
def othen (o p : Ordering) : Ordering :=
  match o with
  | .eq => p
  | _ => o

/-- Rust `Ordering::reverse`. -/
def oswap (o : Ordering) : Ordering :=
  match o with
  | .lt => .gt
  | .eq => .eq
  | .gt => .lt

/-- Lexicographic comparison of character lists by code point; on UTF-8
strings this coincides with Rust's byte-lexicographic `Ord::cmp` for
`String`. -/
def charsCmp : List Char → List Char → Ordering
  | [], [] => .eq
  | [], _ :: _ => .lt
  | _ :: _, [] => .gt
  | a :: as, b :: bs => othen (natCmp a.toNat b.toNat) (charsCmp as bs)

/-- Rust `Ord::cmp` on `String`: lexicographic. -/
def strCmp (a b : String) : Ordering := charsCmp a.data b.data

/-- `impl Ord for Expiration` (main.rs 159-166):
`self.deadline.cmp(&other.deadline).reverse().then_with(|| self.key.cmp(&other.key))`. -/
def expCmp (a b : Expiration) : Ordering :=
  othen (oswap (natCmp a.deadline b.deadline)) (strCmp a.key b.key)

/-- `BinaryHeap::peek` on the heap's contents: the greatest element under
`expCmp` (the heap is a max-heap for its `Ord`); `none` exactly when empty.
Elements comparing `eq` under `expCmp` are equal as values, so any choice of
maximum is the same value. -/
def heapPeek : List Expiration → Option Expiration
  | [] => none
  | e :: rest =>
    match heapPeek rest with
    | none => some e
    | some m => if expCmp e m = .gt then some e else some m

/-- An HTTP response as the handler builds it: status, extra headers, body. -/
structure HttpResult where
  status : Nat
  headers : List (String × String)
  body : Bytes
deriving DecidableEq

/-- Body text of an error message string; the messages are ASCII so code
points are bytes. -/
def strBytes (s : String) : Bytes := s.data.map Char.toNat

/-- The outcome of one routed request: the Store afterwards, the expiration
records accepted by the Scheduler's inbound channel, and either an HTTP
response or an `anyhow` error (which hyper surfaces as a connection failure,
not an HTTP response). -/
structure OpResult where
  store : Store
  enqueued : List Expiration
  response : Except String HttpResult

/-- `async fn get` (main.rs 45-58): look the key up under the read lock;
absent gives 404 with an empty body, present gives 200 with a copy of the
bytes. -/
def get (st : Store) (key : String) : HttpResult :=
  match st key with
  | none => ⟨404, [], []⟩
  | some v => ⟨200, [], v⟩

/-- `async fn set` (main.rs 60-88): insert under the write lock; then, when
`expiration_ms > 0`, send `Expiration { deadline: now + expiration_ms, key }`
to the Scheduler's channel — a failed send propagates as an error (the `?` on
`context(...)`), with the insert already done; finally a 200 response echoing
the value with the action marker header. -/
def set (st : Store) (key : String) (value : Bytes) (expirationMs : Nat)
    (now : Nat) (sendOk : Bool) : OpResult :=
  let st2 := storeInsert st key value
  if expirationMs > 0 then
    if sendOk then
      ⟨st2, [⟨key, now + expirationMs⟩],
        .ok ⟨200, [("X-memoryhttpd-action", "set")], value⟩⟩
    else
      ⟨st2, [], .error "Could not trigger expiration in the background"⟩
  else
    ⟨st2, [], .ok ⟨200, [("X-memoryhttpd-action", "set")], value⟩⟩

/-- `async fn delete` (main.rs 90-94): remove under the write lock, respond
200 with an empty body whether or not the key existed. -/
def delete (st : Store) (key : String) : OpResult :=
  ⟨storeErase st key, [], .ok ⟨200, [], []⟩⟩

/-- An inbound request as the handler consumes it: method, the raw `Host`
header value when present, the URI path, the raw `x-expire-ms` header value
when present, and the (already buffered) body bytes. -/
structure HttpRequest where
  method : String
  host : Option String
  path : String
  expireMs : Option String
  body : Bytes

/-- `http::HeaderValue::to_str` succeeds only on visible-ASCII bytes
(32..=126) and horizontal tab. -/
def isVisAscii (c : Char) : Bool :=
  (32 ≤ c.toNat && c.toNat < 127) || c == '\t'

/-- Host resolution (main.rs 97-103): absent defaults to "localhost";
present but not visible-ASCII makes the whole handler fail with the
`Could not read host header` context error. -/
def hostOf : Option String → Except String String
  | none => .ok "localhost"
  | some h => if h.data.all isVisAscii then .ok h
              else .error "Could not read host header"

/-- `str::parse::<u64>`: an optional leading `+`, then one or more ASCII
digits, and the value must fit in a `u64`; anything else is an error. -/
def rustParseU64 (s : String) : Option Nat :=
  let ds := match s.data with
    | '+' :: rest => rest
    | l => l
  if ds = [] then none
  else if ds.all Char.isDigit then
    let n := ds.foldl (fun acc c => acc * 10 + (c.toNat - 48)) 0
    if n < 2 ^ 64 then some n else none
  else none

/-- The `x-expire-ms` processing of the PUT branch (main.rs 125-142): absent
header means the process-wide default; a header that is not visible ASCII or
does not parse as a `u64` yields the corresponding bad-request message. -/
def parseExpire (h : Option String) (dflt : Nat) : Except String Nat :=
  match h with
  | none => .ok dflt
  | some hv =>
    if hv.data.all isVisAscii then
      match rustParseU64 hv with
      | some n => .ok n
      | none => .error "x-expire-ms is not a valid number"
    else .error "x-expire-ms is not ascii"

/-- `host.chars().chain(req.uri().path().chars()).collect::<String>()`
(main.rs 119): the characters of the host followed by the characters of the
path, collected into a string. -/
def computeKey (host path : String) : String := ⟨host.data ++ path.data⟩

/-- `req.uri().path().starts_with('/')` (main.rs 112): true exactly when the
first character is a slash. -/
def startsWithSlash (s : String) : Bool :=
  match s.data with
  | [] => false
  | c :: _ => c == '/'

/-- `async fn handler` (main.rs 96-157): resolve the host (an unreadable Host
header aborts with an error), reject paths without a leading slash with a 400,
derive the key, then dispatch on the method: GET reads, PUT parses the TTL
header (400 on failure) and then writes, DELETE removes, anything else is
405 with an empty body. -/
def handler (st : Store) (defaultExpiration : Nat) (now : Nat) (sendOk : Bool)
    (req : HttpRequest) : OpResult :=
  match hostOf req.host with
  | .error e => ⟨st, [], .error e⟩
  | .ok host =>
    if startsWithSlash req.path = false then
      ⟨st, [], .ok ⟨400, [], strBytes "Path must start with a slash"⟩⟩
    else
      let key := computeKey host req.path
      if req.method = "GET" then
        ⟨st, [], .ok (get st key)⟩
      else if req.method = "PUT" then
        match parseExpire req.expireMs defaultExpiration with
        | .error msg => ⟨st, [], .ok ⟨400, [], strBytes msg⟩⟩
        | .ok e => set st key req.body e now sendOk
      else if req.method = "DELETE" then
        delete st key
      else
        ⟨st, [], .ok ⟨405, [], []⟩⟩

/-! ## The expiration Scheduler (`async fn expiring`, main.rs 174-197)

One loop iteration computes `next_deadline` (the heap top's deadline, or
now + 24h when the heap is empty) and then runs a `tokio::select!` over two
branches plus an `else`:
- `Some(exp) = requests.recv()`: completes when a message is in flight or the
  channel is closed; on a closed, drained channel it yields `None`, the
  pattern fails and the branch is disabled;
- `_ = sleep_until(next_deadline)`: completes once the current time reaches
  `next_deadline`; its wildcard pattern always matches, so this branch is
  never disabled;
- `else => break`: runs only when every branch is disabled. -/

/-- The mpsc channel from the Router side: in-flight messages plus whether
every sender has been dropped. -/
structure Chan where
  msgs : List Expiration
  closed : Bool
deriving DecidableEq

/-- The Scheduler's state: the shared Store, the `BinaryHeap` contents, the
inbound channel, and the current monotonic time in milliseconds. -/
structure SchedState where
  store : Store
  heap : List Expiration
  chan : Chan
  now : Nat

/-- `let next_deadline = heap.peek().map(|e| e.deadline).unwrap_or_else(now + 24h)`
(main.rs 180-183), with 24h = 86400000 ms. -/
def nextDeadline (s : SchedState) : Nat :=
  match heapPeek s.heap with
  | some e => e.deadline
  | none => s.now + 86400000

/-- The body of the `sleep_until` branch (main.rs 186-193): if the heap is
non-empty, delete the peeked record's key from the Store and pop that
record; otherwise do nothing. -/
def timerFire (s : SchedState) : SchedState :=
  match heapPeek s.heap with
  | none => s
  | some e => { s with store := storeErase s.store e.key, heap := s.heap.erase e }

/-- The `recv` branch is disabled exactly when it yields `None`: the channel
is closed and no message is in flight. -/
def recvDisabled (s : SchedState) : Bool :=
  s.chan.closed && s.chan.msgs.isEmpty

/-- The `sleep_until` branch is never disabled: `sleep_until` always
completes (at its deadline) and its wildcard pattern `_` always matches. -/
def timerDisabled (_ : SchedState) : Bool := false

/-- The `else => break` arm of the `tokio::select!` runs exactly when every
other branch is disabled. -/
def selectHalts (s : SchedState) : Bool :=
  recvDisabled s && timerDisabled s

/-- One iteration of the Scheduler loop, as a relation from a state to either
`some` next state (the loop continues) or `none` (the `break` is taken).
Time may advance to any `t ≥ now` while the select waits. -/
inductive SchedStep : SchedState → Option SchedState → Prop
  | recv (s : SchedState) (e : Expiration) (rest : List Expiration) (t : Nat) :
      s.chan.msgs = e :: rest → s.now ≤ t →
      SchedStep s (some { s with heap := e :: s.heap,
                                 chan := { s.chan with msgs := rest }, now := t })
  | timer (s : SchedState) (t : Nat) :
      s.now ≤ t → nextDeadline s ≤ t →
      SchedStep s (some (timerFire { s with now := t }))
  | halt (s : SchedState) :
      selectHalts s = true → SchedStep s none

/-- Zero or more continuing iterations of the Scheduler loop. -/
def SchedReach : SchedState → SchedState → Prop :=
  Relation.ReflTransGen (fun s s2 => SchedStep s (some s2))

/-- No expiration record for key `k` is pending: none in the heap and none
in flight on the channel. -/
def noRecordFor (s : SchedState) (k : String) : Prop :=
  (∀ r ∈ s.heap, r.key ≠ k) ∧ (∀ r ∈ s.chan.msgs, r.key ≠ k)

/-! ## Order lemmas for the comparators -/

lemma natCmp_eq_gt {a b : Nat} : natCmp a b = .gt ↔ b < a := by
  unfold natCmp; split_ifs with h1 h2 <;> simp <;> omega

lemma natCmp_eq_eq {a b : Nat} : natCmp a b = .eq ↔ a = b := by
  unfold natCmp; split_ifs with h1 h2 <;> simp <;> omega

lemma natCmp_eq_lt {a b : Nat} : natCmp a b = .lt ↔ a < b := by
  unfold natCmp; split_ifs with h1 h2 <;> simp <;> omega

lemma othen_eq_gt {o p : Ordering} :
    othen o p = .gt ↔ (o = .gt ∨ (o = .eq ∧ p = .gt)) := by
  cases o <;> simp [othen]

lemma oswap_eq_gt {o : Ordering} : oswap o = .gt ↔ o = .lt := by
  cases o <;> simp [oswap]

lemma oswap_eq_eq {o : Ordering} : oswap o = .eq ↔ o = .eq := by
  cases o <;> simp [oswap]

lemma oswap_othen {o p : Ordering} :
    oswap (othen o p) = othen (oswap o) (oswap p) := by
  cases o <;> rfl

lemma oswap_oswap {o : Ordering} : oswap (oswap o) = o := by
  cases o <;> rfl

/-- Characterization of a non-`gt` lexicographic comparison on a cons. -/
lemma charsCmp_cons_ne_gt {a b : Char} {as bs : List Char} :
    charsCmp (a :: as) (b :: bs) ≠ .gt ↔
      (a.toNat ≤ b.toNat ∧ (a.toNat = b.toNat → charsCmp as bs ≠ .gt)) := by
  simp only [ne_eq, charsCmp, othen_eq_gt, natCmp_eq_gt, natCmp_eq_eq]
  push_neg
  constructor
  · rintro ⟨h1, h2⟩; exact ⟨by omega, h2⟩
  · rintro ⟨h1, h2⟩; exact ⟨by omega, h2⟩

lemma charsCmp_self (l : List Char) : charsCmp l l = .eq := by
  induction l with
  | nil => rfl
  | cons a as ih => simp [charsCmp, natCmp, ih, othen]

lemma charsCmp_trans_ne_gt {a b c : List Char} :
    charsCmp a b ≠ .gt → charsCmp b c ≠ .gt → charsCmp a c ≠ .gt := by
  induction a generalizing b c with
  | nil =>
    intro _ _
    cases c <;> simp [charsCmp]
  | cons x as ih =>
    intro h1 h2
    cases b with
    | nil => simp [charsCmp] at h1
    | cons y bs =>
      cases c with
      | nil => simp [charsCmp] at h2
      | cons z cs =>
        rw [charsCmp_cons_ne_gt] at h1 h2 ⊢
        obtain ⟨hxy, hab⟩ := h1
        obtain ⟨hyz, hbc⟩ := h2
        refine ⟨Nat.le_trans hxy hyz, fun he => ?_⟩
        have hxy2 : x.toNat = y.toNat := by omega
        have hyz2 : y.toNat = z.toNat := by omega
        exact ih (hab hxy2) (hbc hyz2)

lemma natCmp_swap {a b : Nat} : oswap (natCmp a b) = natCmp b a := by
  unfold natCmp
  split_ifs <;> first | rfl | omega

lemma charsCmp_swap {a b : List Char} : oswap (charsCmp a b) = charsCmp b a := by
  induction a generalizing b with
  | nil => cases b <;> rfl
  | cons x as ih =>
    cases b with
    | nil => rfl
    | cons y bs =>
      simp only [charsCmp, oswap_othen, natCmp_swap, ih]

/-- The non-`gt` characterization of the Rust heap order: `expCmp a b ≠ gt`
says `a` is not above `b` in the heap, i.e. `b`’s deadline is at most `a`’s,
and on equal deadlines `a`’s key is at most `b`’s. -/
lemma expCmp_ne_gt_iff {a b : Expiration} :
    expCmp a b ≠ .gt ↔
      (b.deadline ≤ a.deadline ∧
        (a.deadline = b.deadline → strCmp a.key b.key ≠ .gt)) := by
  simp only [ne_eq, expCmp, strCmp, othen_eq_gt, oswap_eq_gt, oswap_eq_eq,
    natCmp_eq_lt, natCmp_eq_eq]
  push_neg
  constructor
  · rintro ⟨h1, h2⟩; exact ⟨by omega, h2⟩
  · rintro ⟨h1, h2⟩; exact ⟨by omega, h2⟩

lemma expCmp_self (a : Expiration) : expCmp a a = .eq := by
  simp [expCmp, strCmp, natCmp, charsCmp_self, othen, oswap]

lemma expCmp_trans_ne_gt {a b c : Expiration} :
    expCmp a b ≠ .gt → expCmp b c ≠ .gt → expCmp a c ≠ .gt := by
  intro h1 h2
  rw [expCmp_ne_gt_iff] at h1 h2 ⊢
  obtain ⟨hd1, hk1⟩ := h1
  obtain ⟨hd2, hk2⟩ := h2
  refine ⟨Nat.le_trans hd2 hd1, fun he => ?_⟩
  have e1 : a.deadline = b.deadline := by omega
  have e2 : b.deadline = c.deadline := by omega
  simp only [strCmp] at hk1 hk2 ⊢
  exact charsCmp_trans_ne_gt (hk1 e1) (hk2 e2)

lemma expCmp_swap {a b : Expiration} : oswap (expCmp a b) = expCmp b a := by
  simp only [expCmp, strCmp, oswap_othen, oswap_oswap, charsCmp_swap,
    natCmp_swap]

lemma expCmp_gt_asymm {a b : Expiration} :
    expCmp a b = .gt → expCmp b a ≠ .gt := by
  intro h
  rw [← expCmp_swap, h]
  simp [oswap]

/-! ## Heap lemmas: the peeked element is the heap maximum -/

lemma heapPeek_eq_none {l : List Expiration} : heapPeek l = none ↔ l = [] := by
  cases l with
  | nil => simp [heapPeek]
  | cons e rest =>
    simp only [heapPeek]
    cases hr : heapPeek rest with
    | none => simp
    | some m => by_cases hgt : expCmp e m = .gt <;> simp [hgt]

lemma heapPeek_mem {l : List Expiration} {m : Expiration} :
    heapPeek l = some m → m ∈ l := by
  induction l generalizing m with
  | nil => intro h; simp [heapPeek] at h
  | cons e rest ih =>
    intro h
    simp only [heapPeek] at h
    cases hr : heapPeek rest with
    | none =>
      rw [hr] at h
      simp only [Option.some.injEq] at h
      simp [h]
    | some m2 =>
      rw [hr] at h
      have h2 : (if expCmp e m2 = Ordering.gt then some e else some m2) = some m := h
      by_cases hgt : expCmp e m2 = .gt
      · rw [if_pos hgt] at h2
        simp only [Option.some.injEq] at h2
        simp [h2]
      · rw [if_neg hgt] at h2
        simp only [Option.some.injEq] at h2
        subst h2
        exact List.mem_cons_of_mem e (ih hr)

/-- What `BinaryHeap::peek`/`pop` return is a greatest element of the heap
under the `Ord for Expiration` instance: nothing in the heap compares
greater. -/
lemma heapPeek_max {l : List Expiration} {m : Expiration} :
    heapPeek l = some m → ∀ r ∈ l, expCmp r m ≠ .gt := by
  induction l generalizing m with
  | nil => intro h; simp [heapPeek] at h
  | cons e rest ih =>
    intro h r hr
    simp only [heapPeek] at h
    cases hp : heapPeek rest with
    | none =>
      rw [hp] at h
      simp only [Option.some.injEq] at h
      subst h
      have hrest : rest = [] := heapPeek_eq_none.mp hp
      subst hrest
      simp only [List.mem_singleton] at hr
      subst hr
      simp [expCmp_self]
    | some m2 =>
      rw [hp] at h
      have h2 : (if expCmp e m2 = Ordering.gt then some e else some m2) = some m := h
      by_cases hgt : expCmp e m2 = .gt
      · rw [if_pos hgt] at h2
        simp only [Option.some.injEq] at h2
        subst h2
        rcases List.mem_cons.mp hr with h1 | h1
        · subst h1; simp [expCmp_self]
        · exact expCmp_trans_ne_gt (ih hp r h1) (expCmp_gt_asymm hgt)
      · rw [if_neg hgt] at h2
        simp only [Option.some.injEq] at h2
        subst h2
        rcases List.mem_cons.mp hr with h1 | h1
        · subst h1; exact hgt
        · exact ih hp r h1

/-! ## Scheduler step lemmas -/

/-- When the heap is empty a timer firing changes nothing (main.rs 187: the
`if let Some(exp)` guard fails). -/
lemma timerFire_of_none {s : SchedState} (hp : heapPeek s.heap = none) :
    timerFire s = s := by
  simp [timerFire, hp]

/-- When the heap is non-empty a timer firing deletes the peeked record's key
from the Store and removes that one record from the heap. -/
lemma timerFire_of_some {s : SchedState} {e : Expiration}
    (hp : heapPeek s.heap = some e) :
    timerFire s =
      { s with store := storeErase s.store e.key, heap := s.heap.erase e } := by
  simp [timerFire, hp]

/-- One continuing Scheduler iteration neither touches the Store under a key
with no pending record nor creates a record for it. -/
lemma schedStep_no_record {s s2 : SchedState} {k : String}
    (hstep : SchedStep s (some s2)) (hno : noRecordFor s k) :
    s2.store k = s.store k ∧ noRecordFor s2 k := by
  obtain ⟨hheap, hmsgs⟩ := hno
  cases hstep with
  | recv e rest t hmsg hle =>
    refine ⟨rfl, ?_, ?_⟩
    · intro r hr
      rcases List.mem_cons.mp hr with h1 | h1
      · subst h1
        exact hmsgs r (by rw [hmsg]; exact List.mem_cons_self r rest)
      · exact hheap r h1
    · intro r hr
      exact hmsgs r (by rw [hmsg]; exact List.mem_cons_of_mem e hr)
  | timer t hle hnd =>
    cases hp : heapPeek s.heap with
    | none =>
      rw [timerFire_of_none (s := { s with now := t }) hp]
      exact ⟨rfl, hheap, hmsgs⟩
    | some e =>
      rw [timerFire_of_some (s := { s with now := t }) hp]
      have hek : e.key ≠ k := hheap e (heapPeek_mem hp)
      refine ⟨?_, fun r hr => hheap r (List.mem_of_mem_erase hr), hmsgs⟩
      show storeErase s.store e.key k = s.store k
      simp only [storeErase]
      rw [if_neg (fun hh : k = e.key => hek hh.symm)]

/-- Any number of continuing Scheduler iterations preserve the Store under a
key with no pending record, and never create a record for it. -/
lemma schedReach_no_record {s s2 : SchedState} {k : String}
    (h : SchedReach s s2) (hno : noRecordFor s k) :
    s2.store k = s.store k ∧ noRecordFor s2 k := by
  induction h with
  | refl => exact ⟨rfl, hno⟩
  | tail hab hbc ih =>
    obtain ⟨ih1, ih2⟩ := ih
    obtain ⟨h1, h2⟩ := schedStep_no_record hbc ih2
    exact ⟨h1.trans ih1, h2⟩

/-! ## The claims -/

/-- Claim C1, counterexample: two records share deadline 5 under keys "a" and
"b", with "a" lexicographically smaller; the heap pops the record with the
LARGER key "b" first (and the timer firing deletes "b" from the Store while
"a"'s record stays queued), contradicting the claimed key-ascending
tie-break. -/
theorem pop_tiebreak_counterexample :
    heapPeek [⟨"a", 5⟩, ⟨"b", 5⟩] = some ⟨"b", 5⟩ ∧
    strCmp "a" "b" = .lt ∧
    (timerFire ⟨storeInsert (storeInsert emptyStore "a" [0]) "b" [1],
        [⟨"a", 5⟩, ⟨"b", 5⟩], ⟨[], false⟩, 5⟩).heap = [⟨"a", 5⟩] ∧
    (timerFire ⟨storeInsert (storeInsert emptyStore "a" [0]) "b" [1],
        [⟨"a", 5⟩, ⟨"b", 5⟩], ⟨[], false⟩, 5⟩).store "b" = none ∧
    (timerFire ⟨storeInsert (storeInsert emptyStore "a" [0]) "b" [1],
        [⟨"a", 5⟩, ⟨"b", 5⟩], ⟨[], false⟩, 5⟩).store "a" = some [0] :=
  ⟨by decide, by decide, by decide, by decide, by decide⟩

/-- Claim C1 (amended): the Scheduler's priority queue pops records in
deadline-ascending order, and among records with equal deadlines it pops the
record with the lexicographically LARGEST key first (the deterministic
tie-break is key-descending, because the Rust `Ord` reverses only the
deadline comparison inside a max-heap): the popped record's deadline is
minimal in the queue, and every record sharing that deadline has a key that
is at most the popped record's key. -/
theorem pop_min_deadline_max_key (l : List Expiration) (m : Expiration)
    (hm : heapPeek l = some m) :
    ∀ r ∈ l, m.deadline ≤ r.deadline ∧
      (m.deadline = r.deadline → strCmp r.key m.key ≠ .gt) := by
  intro r hr
  have h := heapPeek_max hm r hr
  rw [expCmp_ne_gt_iff] at h
  exact ⟨h.1, fun he => h.2 he.symm⟩

/-- Claim C1, witness at a concrete queue. -/
theorem pop_min_deadline_max_key_witness :
    (3 : Nat) ≤ 7 ∧ ((3 : Nat) = 7 → strCmp "b" "a" ≠ .gt) :=
  pop_min_deadline_max_key [⟨"a", 3⟩, ⟨"b", 7⟩] ⟨"a", 3⟩ (by decide)
    ⟨"b", 7⟩ (by decide)

/-- Claim C2: the claim says the loop breaks exactly when the inbound queue
is closed with no senders.  In the code the break (the select's else arm) can
never run: the `sleep_until` branch always completes and its wildcard pattern
always matches, so the select never has every branch disabled — even in a
state where the channel is closed and drained (the claimed terminal
condition, satisfiable as the second conjunct shows), and even though one
more timer iteration is still possible there (third conjunct). -/
theorem select_never_halts :
    (∀ s : SchedState, selectHalts s = false) ∧
    recvDisabled ⟨emptyStore, [], ⟨[], true⟩, 0⟩ = true ∧
    SchedStep ⟨emptyStore, [], ⟨[], true⟩, 0⟩
      (some (timerFire ⟨emptyStore, [], ⟨[], true⟩, 86400000⟩)) := by
  refine ⟨fun s => ?_, rfl, ?_⟩
  · simp [selectHalts, timerDisabled]
  · exact SchedStep.timer ⟨emptyStore, [], ⟨[], true⟩, 0⟩ 86400000
      (Nat.zero_le 86400000) (by simp [nextDeadline, heapPeek])

/-- Claim C4: for every key and byte-sequence value, a `set` (PUT) followed
immediately by a `get` of the same key returns exactly the stored bytes with
a 200 response — whatever the prior store contents, the TTL, and whether the
expiration send succeeded. -/
theorem put_get_roundtrip (st : Store) (k : String) (v : Bytes) (e now : Nat)
    (ok : Bool) : get ((set st k v e now ok).store) k = ⟨200, [], v⟩ := by
  have hs : (set st k v e now ok).store = storeInsert st k v := by
    cases ok <;> by_cases he : e > 0 <;> simp [set, he]
  rw [hs]
  simp [get, storeInsert]

/-- Claim C10: a PUT with positive TTL whose send to the Scheduler's channel
fails returns the channel error, but the value was already inserted before
the send and is not rolled back; nothing is enqueued. -/
theorem failed_send_no_rollback (st : Store) (k : String) (v : Bytes)
    (e now : Nat) (he : 0 < e) :
    (set st k v e now false).store = storeInsert st k v ∧
    (set st k v e now false).store k = some v ∧
    (set st k v e now false).enqueued = [] ∧
    (set st k v e now false).response
      = .error "Could not trigger expiration in the background" := by
  refine ⟨?_, ?_, ?_, ?_⟩ <;> simp [set, he, storeInsert]

/-- A failed TTL-header parse always produces one of the two fixed non-empty
bad-request messages. -/
lemma parseExpire_error_msg {h : Option String} {d : Nat} {msg : String}
    (he : parseExpire h d = .error msg) : strBytes msg ≠ [] := by
  cases h with
  | none => simp [parseExpire] at he
  | some hv =>
    simp only [parseExpire] at he
    by_cases ha : hv.data.all isVisAscii
    · rw [if_pos ha] at he
      cases hp : rustParseU64 hv with
      | some n => rw [hp] at he; simp at he
      | none =>
        rw [hp] at he
        simp only [Except.error.injEq] at he
        subst he
        decide
    · rw [if_neg ha] at he
      simp only [Except.error.injEq] at he
      subst he
      decide

/-- Claim C3, counterexample: the 404 of a GET on an absent key and the 405
of an unsupported method both carry an empty body — no human-readable reason
string. -/
theorem notfound_empty_body_counterexample :
    (handler emptyStore 0 0 true ⟨"GET", some "h", "/missing", none, []⟩).response
      = .ok ⟨404, [], []⟩ ∧
    (handler emptyStore 0 0 true ⟨"PATCH", some "h", "/x", none, []⟩).response
      = .ok ⟨405, [], []⟩ :=
  ⟨rfl, rfl⟩

/-- Claim C3 (amended): every HTTP 400 error response includes the
machine-readable status code and a non-empty short plain-text reason in its
body; the 404 and 405 responses and the server-error path carry no reason
string. -/
theorem badrequest_nonempty_reason (st : Store) (d now : Nat) (ok : Bool)
    (req : HttpRequest) (r : HttpResult)
    (hr : (handler st d now ok req).response = .ok r) (h4 : r.status = 400) :
    r.body ≠ [] := by
  simp only [handler] at hr
  split at hr
  · simp at hr
  · split at hr
    · simp only [Except.ok.injEq] at hr
      subst hr
      decide
    · split at hr
      · simp only [Except.ok.injEq] at hr
        subst hr
        simp only [get] at h4
        split at h4 <;> simp at h4
      · split at hr
        · split at hr
          · rename_i msg hmsg
            simp only [Except.ok.injEq] at hr
            subst hr
            exact parseExpire_error_msg hmsg
          · simp only [set] at hr
            split at hr
            · split at hr
              · simp only [Except.ok.injEq] at hr
                subst hr
                simp at h4
              · simp at hr
            · simp only [Except.ok.injEq] at hr
              subst hr
              simp at h4
        · split at hr
          · simp only [delete, Except.ok.injEq] at hr
            subst hr
            simp at h4
          · simp only [Except.ok.injEq] at hr
            subst hr
            simp at h4

/-- Claim C3, witness: the malformed-path 400 carries its reason text. -/
theorem badrequest_nonempty_reason_witness :
    strBytes "Path must start with a slash" ≠ [] :=
  badrequest_nonempty_reason emptyStore 0 0 true
    ⟨"GET", some "h", "nopath", none, []⟩
    ⟨400, [], strBytes "Path must start with a slash"⟩ rfl rfl

/-- Claim C5, counterexample: a PUT whose `x-expire-ms` header is present and
unparseable but whose Host header is not readable ASCII is answered with the
host-header error (a connection-level server error), not an HTTP 400. -/
theorem unreadable_host_counterexample :
    rustParseU64 "zz" = none ∧
    (handler emptyStore 0 0 true ⟨"PUT", some "é", "/x", some "zz", []⟩).response
      = .error "Could not read host header" :=
  ⟨rfl, rfl⟩

/-- Claim C5 (amended): for every PUT whose Host header is readable (absent
or visible ASCII) and whose `x-expire-ms` header is present but not
parseable as a non-negative integer, the response is HTTP 400 with a
non-empty plain-text reason, and the Store is unchanged with no expiration
record enqueued. -/
theorem bad_ttl_rejected (st : Store) (d now : Nat) (ok : Bool)
    (hostH : Option String) (p : String) (ehv : String) (b : Bytes)
    (host msg : String)
    (hh : hostOf hostH = .ok host)
    (hp : parseExpire (some ehv) d = .error msg) :
    (handler st d now ok ⟨"PUT", hostH, p, some ehv, b⟩).store = st ∧
    (handler st d now ok ⟨"PUT", hostH, p, some ehv, b⟩).enqueued = [] ∧
    ∃ r, (handler st d now ok ⟨"PUT", hostH, p, some ehv, b⟩).response = .ok r ∧
      r.status = 400 ∧ r.body ≠ [] := by
  by_cases hs : startsWithSlash p = false
  · refine ⟨?_, ?_, ⟨400, [], strBytes "Path must start with a slash"⟩,
      ?_, rfl, by decide⟩ <;>
      simp [handler, hh, hs]
  · refine ⟨?_, ?_, ⟨400, [], strBytes msg⟩, ?_, rfl,
      parseExpire_error_msg hp⟩ <;>
      simp [handler, hh, hs, hp]

/-- Claim C5, witness at a concrete unparseable TTL header. -/
theorem bad_ttl_rejected_witness :
    (handler emptyStore 0 0 true ⟨"PUT", some "h", "/x", some "zz", []⟩).store
      = emptyStore ∧
    (handler emptyStore 0 0 true ⟨"PUT", some "h", "/x", some "zz", []⟩).enqueued
      = [] ∧
    ∃ r, (handler emptyStore 0 0 true
        ⟨"PUT", some "h", "/x", some "zz", []⟩).response = .ok r ∧
      r.status = 400 ∧ r.body ≠ [] :=
  bad_ttl_rejected emptyStore 0 0 true (some "h") "/x" "zz" [] "h"
    "x-expire-ms is not a valid number" rfl rfl

/-- Claim C6: a PUT with effective TTL 0 enqueues no expiration record and —
since the Scheduler only ever deletes keys that have a pending record in its
heap or channel — a key with no pending record is never expired by the
Scheduler, only an explicit delete can remove it; a PUT with TTL greater
than 0 (whose send is accepted) enqueues exactly one record with deadline
now + TTL. -/
theorem ttl_registration (st : Store) (k : String) (v : Bytes) (now e : Nat)
    (ok : Bool) (s s2 : SchedState) (k2 : String) :
    (set st k v 0 now ok).enqueued = [] ∧
    (0 < e → (set st k v e now true).enqueued = [⟨k, now + e⟩]) ∧
    (SchedReach s s2 → noRecordFor s k2 →
      s2.store k2 = s.store k2 ∧ noRecordFor s2 k2) := by
  refine ⟨?_, ?_, ?_⟩
  · simp [set]
  · intro he
    simp [set, he]
  · intro hre hno
    exact schedReach_no_record hre hno

/-- Claim C7: the cache key is the Host header string concatenated
verbatim with the request path string — no separator, no normalization —
and a GET answers 200 with body `v` exactly when the Store maps that
concatenation to `v`. -/
theorem key_concatenation (host path : String) (st : Store) (d now : Nat)
    (ok : Bool) (v : Bytes) :
    computeKey host path = host ++ path ∧
    (hostOf (some host) = .ok host → startsWithSlash path = true →
      ((handler st d now ok ⟨"GET", some host, path, none, []⟩).response
          = .ok ⟨200, [], v⟩ ↔ st (host ++ path) = some v)) := by
  have hck : computeKey host path = host ++ path := by
    cases host with
    | mk l1 => cases path with
      | mk l2 => rfl
  refine ⟨hck, fun hh hs => ?_⟩
  simp only [handler, hh, hs]
  simp only [get, hck]
  cases hv : st (host ++ path) with
  | none => simp [hv]
  | some w => simp [hv]

/-- Claim C8: a timer firing (which requires the armed deadline — the peeked
record's — to have been reached) pops exactly one record, the queue's
earliest one, whose deadline is minimal and has passed; its key is deleted
from the Store; with an empty heap a firing changes nothing. -/
theorem timer_fire_single_pop (s : SchedState) (e : Expiration)
    (hp : heapPeek s.heap = some e) (hfire : nextDeadline s ≤ s.now) :
    e.deadline ≤ s.now ∧
    (∀ r ∈ s.heap, e.deadline ≤ r.deadline) ∧
    (timerFire s).store = storeErase s.store e.key ∧
    (timerFire s).heap = s.heap.erase e ∧
    (timerFire s).heap.length + 1 = s.heap.length := by
  have hd : nextDeadline s = e.deadline := by simp [nextDeadline, hp]
  have hmem : e ∈ s.heap := heapPeek_mem hp
  have hfe : timerFire s =
      { s with store := storeErase s.store e.key, heap := s.heap.erase e } :=
    timerFire_of_some hp
  refine ⟨hd ▸ hfire, ?_, ?_, ?_, ?_⟩
  · intro r hr
    exact (expCmp_ne_gt_iff.mp (heapPeek_max hp r hr)).1
  · rw [hfe]
  · rw [hfe]
  · rw [hfe]
    have h1 := List.length_erase_of_mem hmem
    have h2 : 0 < s.heap.length := List.length_pos.mpr (by
      intro hnil
      rw [hnil] at hp
      simp [heapPeek] at hp)
    simp only [h1]
    omega

/-- Claim C8, witness at a concrete one-record heap. -/
theorem timer_fire_single_pop_witness :
    (⟨"k", 3⟩ : Expiration).deadline ≤
        (⟨emptyStore, [⟨"k", 3⟩], ⟨[], false⟩, 3⟩ : SchedState).now ∧
    (∀ r ∈ (⟨emptyStore, [⟨"k", 3⟩], ⟨[], false⟩, 3⟩ : SchedState).heap,
        (⟨"k", 3⟩ : Expiration).deadline ≤ r.deadline) ∧
    (timerFire ⟨emptyStore, [⟨"k", 3⟩], ⟨[], false⟩, 3⟩).store
      = storeErase (⟨emptyStore, [⟨"k", 3⟩], ⟨[], false⟩, 3⟩ : SchedState).store
          "k" ∧
    (timerFire ⟨emptyStore, [⟨"k", 3⟩], ⟨[], false⟩, 3⟩).heap
      = (⟨emptyStore, [⟨"k", 3⟩], ⟨[], false⟩, 3⟩ : SchedState).heap.erase
          ⟨"k", 3⟩ ∧
    (timerFire ⟨emptyStore, [⟨"k", 3⟩], ⟨[], false⟩, 3⟩).heap.length + 1
      = (⟨emptyStore, [⟨"k", 3⟩], ⟨[], false⟩, 3⟩ : SchedState).heap.length :=
  timer_fire_single_pop ⟨emptyStore, [⟨"k", 3⟩], ⟨[], false⟩, 3⟩ ⟨"k", 3⟩
    (by decide) (by decide)

/-- Claim C9: in any continuing Scheduler iteration, every queued record
either stays queued or — only when it is the peeked (earliest) record being
processed — fires, after which the Store no longer maps its key, whatever
value occupied that key (the delete is unconditional: the Store is
universally quantified and never inspected).  There is no other way a record
leaves the queue: no cancellation path exists. -/
theorem expiration_unconditional_delete (s s2 : SchedState)
    (hstep : SchedStep s (some s2)) :
    ∀ r ∈ s.heap,
      r ∈ s2.heap ∨ (heapPeek s.heap = some r ∧ s2.store r.key = none) := by
  intro r hr
  cases hstep with
  | recv e rest t hmsg hle =>
    left
    exact List.mem_cons_of_mem e hr
  | timer t hle hnd =>
    cases hp : heapPeek s.heap with
    | none =>
      left
      rw [timerFire_of_none (s := { s with now := t }) hp]
      exact hr
    | some m =>
      by_cases hrm : r = m
      · right
        subst hrm
        refine ⟨rfl, ?_⟩
        rw [timerFire_of_some (s := { s with now := t }) hp]
        simp [storeErase]
      · left
        rw [timerFire_of_some (s := { s with now := t }) hp]
        exact (List.mem_erase_of_ne hrm).mpr hr

/-- Claim C9, witness at a concrete firing. -/
theorem expiration_unconditional_delete_witness :
    (⟨"k", 3⟩ : Expiration)
        ∈ (timerFire ⟨emptyStore, [⟨"k", 3⟩], ⟨[], false⟩, 3⟩).heap ∨
    (heapPeek [⟨"k", 3⟩] = some ⟨"k", 3⟩ ∧
      (timerFire ⟨emptyStore, [⟨"k", 3⟩], ⟨[], false⟩, 3⟩).store "k" = none) :=
  expiration_unconditional_delete ⟨emptyStore, [⟨"k", 3⟩], ⟨[], false⟩, 3⟩
    (timerFire ⟨emptyStore, [⟨"k", 3⟩], ⟨[], false⟩, 3⟩)
    (SchedStep.timer ⟨emptyStore, [⟨"k", 3⟩], ⟨[], false⟩, 3⟩ 3
      (Nat.le_refl 3) (by decide))
    ⟨"k", 3⟩ (by decide)

/-- Claim C10, witness at a concrete failed send. -/
theorem failed_send_no_rollback_witness :
    (set emptyStore "k" [7] 1 0 false).store = storeInsert emptyStore "k" [7] ∧
    (set emptyStore "k" [7] 1 0 false).store "k" = some [7] ∧
    (set emptyStore "k" [7] 1 0 false).enqueued = [] ∧
    (set emptyStore "k" [7] 1 0 false).response
      = .error "Could not trigger expiration in the background" :=
  failed_send_no_rollback emptyStore "k" [7] 1 0 (by decide)

end Memoryhttpd
